import Mathlib

/-!
Verification development for the identity-preserving watermark verification
pipeline of the backend: the BCH(63, 39) identifier codec used by
`_send_to_ai_server` / `_send_to_ai_server_for_verification`
(`app/services/image_service.py`), the transactional asset uploader
(`upload_image`), the pixel-difference tamper analyzer and the verification
orchestrator (`app/services/validation_service.py`).

Bit strings of `'0'`/`'1'` characters are modelled as `List Bool`
(most-significant position first, as produced by Python format `039b`), and
polynomials over GF(2) are modelled as natural numbers whose bit `i` is the
coefficient of `x^i`.
-/

open Polynomial

/-- Hamming weight of a natural number: the number of set bits, i.e. the size
of the set of bit positions the number encodes. -/
def weight (n : Nat) : Nat :=
  if h : n = 0 then 0 else n % 2 + weight (n / 2)
decreasing_by exact Nat.div_lt_self (Nat.pos_of_ne_zero h) one_lt_two

/-- List of set bit positions of a natural number, in increasing order. -/
def bitlist (n : Nat) : List Nat :=
  if h : n = 0 then []
  else (if n % 2 = 1 then [0] else []) ++ (bitlist (n / 2)).map (· + 1)
decreasing_by exact Nat.div_lt_self (Nat.pos_of_ne_zero h) one_lt_two

/-- Carry-less (GF(2) polynomial) multiplication on the bit representation. -/
def clmul (a b : Nat) : Nat :=
  if h : a = 0 then 0 else (if a % 2 = 1 then b else 0) ^^^ 2 * clmul (a / 2) b
decreasing_by exact Nat.div_lt_self (Nat.pos_of_ne_zero h) one_lt_two

theorem clearTop {k a b : Nat} (ha1 : 2 ^ k ≤ a) (ha2 : a < 2 ^ (k + 1))
    (hb1 : 2 ^ k ≤ b) (hb2 : b < 2 ^ (k + 1)) : a ^^^ b < 2 ^ k := by
  apply Nat.lt_pow_two_of_testBit
  intro i hi
  rcases Nat.eq_or_lt_of_le hi with h | h
  · have hta : a.testBit k = true := by
      rw [Nat.testBit_to_div_mod]
      have h1 : 1 ≤ a / 2 ^ k := (Nat.one_le_div_iff (Nat.two_pow_pos k)).2 ha1
      have h2 : a / 2 ^ k < 2 := by
        rw [Nat.div_lt_iff_lt_mul (Nat.two_pow_pos k)]
        calc a < 2 ^ (k + 1) := ha2
        _ = 2 * 2 ^ k := by ring
      have : a / 2 ^ k = 1 := le_antisymm (by omega) h1
      simp [this]
    have htb : b.testBit k = true := by
      rw [Nat.testBit_to_div_mod]
      have h1 : 1 ≤ b / 2 ^ k := (Nat.one_le_div_iff (Nat.two_pow_pos k)).2 hb1
      have h2 : b / 2 ^ k < 2 := by
        rw [Nat.div_lt_iff_lt_mul (Nat.two_pow_pos k)]
        calc b < 2 ^ (k + 1) := hb2
        _ = 2 * 2 ^ k := by ring
      have : b / 2 ^ k = 1 := le_antisymm (by omega) h1
      simp [this]
    rw [Nat.testBit_xor, ← h, hta, htb]
    rfl
  · have hta : a.testBit i = false :=
      Nat.testBit_lt_two_pow (lt_of_lt_of_le ha2 (Nat.pow_le_pow_right (by decide) h))
    have htb : b.testBit i = false :=
      Nat.testBit_lt_two_pow (lt_of_lt_of_le hb2 (Nat.pow_le_pow_right (by decide) h))
    rw [Nat.testBit_xor, hta, htb]
    rfl

theorem polyModStep {a b : Nat} (hb : b ≠ 0) (ha : ¬a < 2 ^ b.log2) :
    a ^^^ (b <<< (a.log2 - b.log2)) < a := by
  have ha0 : a ≠ 0 := by
    intro h
    exact ha (h ▸ Nat.two_pow_pos b.log2)
  have hlog : b.log2 ≤ a.log2 := (Nat.le_log2 ha0).2 (le_of_not_lt ha)
  have h1 : 2 ^ a.log2 ≤ a := Nat.log2_self_le ha0
  have h2 : a < 2 ^ (a.log2 + 1) := Nat.lt_log2_self
  have hb1 : 2 ^ a.log2 ≤ b <<< (a.log2 - b.log2) := by
    rw [Nat.shiftLeft_eq]
    calc 2 ^ a.log2 = 2 ^ b.log2 * 2 ^ (a.log2 - b.log2) := by
          rw [← pow_add]
          congr 1
          omega
    _ ≤ b * 2 ^ (a.log2 - b.log2) :=
        Nat.mul_le_mul_right _ (Nat.log2_self_le hb)
  have hb2 : b <<< (a.log2 - b.log2) < 2 ^ (a.log2 + 1) := by
    rw [Nat.shiftLeft_eq]
    calc b * 2 ^ (a.log2 - b.log2) < 2 ^ (b.log2 + 1) * 2 ^ (a.log2 - b.log2) :=
          (Nat.mul_lt_mul_right (Nat.two_pow_pos _)).2 Nat.lt_log2_self
    _ = 2 ^ (b.log2 + 1 + (a.log2 - b.log2)) := by rw [← pow_add]
    _ ≤ 2 ^ (a.log2 + 1) := Nat.pow_le_pow_right (by decide) (by omega)
  exact lt_of_lt_of_le (clearTop h1 h2 hb1 hb2) h1

/-- Remainder of GF(2) polynomial division of `a` by `b` (bit representation):
repeatedly cancels the leading bit of `a` with a shifted copy of `b`. -/
def polyMod (a b : Nat) : Nat :=
  if hb : b = 0 then a
  else if h : a < 2 ^ b.log2 then a
  else polyMod (a ^^^ (b <<< (a.log2 - b.log2))) b
termination_by a
decreasing_by exact polyModStep hb h

theorem polyMod_lt {b : Nat} (a : Nat) (hb : b ≠ 0) : polyMod a b < 2 ^ b.log2 := by
  induction a using Nat.strong_induction_on with
  | _ a ih =>
    rw [polyMod]
    simp only [hb, dite_false]
    split
    · assumption
    · exact ih _ (polyModStep hb (by assumption))

theorem polyMod_of_lt {a b : Nat} (h : a < 2 ^ b.log2) : polyMod a b = a := by
  rw [polyMod]
  split
  · rfl
  · simp [h]

theorem testBit_log2 {b : Nat} (hb : b ≠ 0) : b.testBit b.log2 = true := by
  rw [Nat.testBit_to_div_mod]
  have h1 : 1 ≤ b / 2 ^ b.log2 :=
    (Nat.one_le_div_iff (Nat.two_pow_pos _)).2 (Nat.log2_self_le hb)
  have h2 : b / 2 ^ b.log2 < 2 := by
    rw [Nat.div_lt_iff_lt_mul (Nat.two_pow_pos _)]
    calc b < 2 ^ (b.log2 + 1) := Nat.lt_log2_self
    _ = 2 * 2 ^ b.log2 := by ring
  have : b / 2 ^ b.log2 = 1 := by omega
  simp [this]

/-- Interpretation of a natural number as a polynomial over GF(2): bit `i`
becomes the coefficient of `x^i`. Proof-layer device only (the embedded
program code never manipulates `Polynomial` values). -/
noncomputable def toPoly (n : Nat) : Polynomial (ZMod 2) :=
  if h : n = 0 then 0 else C ((n % 2 : ℕ) : ZMod 2) + X * toPoly (n / 2)
decreasing_by exact Nat.div_lt_self (Nat.pos_of_ne_zero h) one_lt_two

theorem toPoly_coeff (n i : Nat) :
    (toPoly n).coeff i = if n.testBit i then 1 else 0 := by
  induction n using Nat.strong_induction_on generalizing i with
  | _ n ih =>
    by_cases hn : n = 0
    · simp [hn, toPoly]
    · rw [toPoly]
      simp only [hn, dite_false]
      cases i with
      | zero =>
        rw [Polynomial.coeff_add, Polynomial.coeff_C, Polynomial.mul_coeff_zero,
          Polynomial.coeff_X_zero, Nat.testBit_zero]
        have h2 : n % 2 = 0 ∨ n % 2 = 1 := Nat.mod_two_eq_zero_or_one n
        rcases h2 with h2 | h2 <;> simp [h2]
      | succ i =>
        rw [Polynomial.coeff_add, Polynomial.coeff_C, Polynomial.coeff_X_mul,
          ih (n / 2) (Nat.div_lt_self (Nat.pos_of_ne_zero hn) one_lt_two) i,
          Nat.testBit_add_one]
        simp

theorem toPoly_inj {m n : Nat} (h : toPoly m = toPoly n) : m = n := by
  apply Nat.eq_of_testBit_eq
  intro i
  have hc := congrArg (fun p => Polynomial.coeff p i) h
  simp only [toPoly_coeff] at hc
  by_cases hm : m.testBit i <;> by_cases hn : n.testBit i
  · simp [hm, hn]
  · rw [if_pos hm, if_neg hn] at hc
    exact absurd hc one_ne_zero
  · rw [if_pos hn, if_neg hm] at hc
    exact absurd hc.symm one_ne_zero
  · simp [hm, hn]

@[simp] theorem toPoly_zero : toPoly 0 = 0 := by simp [toPoly]

theorem toPoly_eq_zero {n : Nat} : toPoly n = 0 ↔ n = 0 :=
  ⟨fun h => toPoly_inj (by simpa using h), fun h => by simp [h]⟩

theorem toPoly_xor (a b : Nat) : toPoly (a ^^^ b) = toPoly a + toPoly b := by
  apply Polynomial.ext
  intro i
  rw [Polynomial.coeff_add, toPoly_coeff, toPoly_coeff, toPoly_coeff, Nat.testBit_xor]
  by_cases ha : a.testBit i <;> by_cases hb : b.testBit i <;> simp [ha, hb] <;> decide

theorem toPoly_shift (a k : Nat) : toPoly (a <<< k) = toPoly a * X ^ k := by
  apply Polynomial.ext
  intro i
  rw [Polynomial.coeff_mul_X_pow', toPoly_coeff, Nat.testBit_shiftLeft, toPoly_coeff]
  by_cases h : k ≤ i <;> simp [h]

theorem toPoly_two_mul (a : Nat) : toPoly (2 * a) = X * toPoly a := by
  have : 2 * a = a <<< 1 := by rw [Nat.shiftLeft_eq]; ring
  rw [this, toPoly_shift, pow_one, mul_comm]

theorem toPoly_clmul (a b : Nat) : toPoly (clmul a b) = toPoly a * toPoly b := by
  induction a using Nat.strong_induction_on with
  | _ a ih =>
    by_cases ha : a = 0
    · simp [ha, clmul]
    · rw [clmul]
      simp only [ha, dite_false]
      rw [toPoly_xor, toPoly_two_mul,
        ih (a / 2) (Nat.div_lt_self (Nat.pos_of_ne_zero ha) one_lt_two)]
      conv_rhs => rw [toPoly]
      simp only [ha, dite_false]
      have h2 : a % 2 = 0 ∨ a % 2 = 1 := Nat.mod_two_eq_zero_or_one a
      rcases h2 with h2 | h2 <;> (simp [h2]; try ring)

theorem toPoly_degree_lt {n k : Nat} (h : n < 2 ^ k) : (toPoly n).degree < k := by
  rw [Polynomial.degree_lt_iff_coeff_zero]
  intro m hm
  rw [toPoly_coeff]
  have : n.testBit m = false :=
    Nat.testBit_lt_two_pow (lt_of_lt_of_le h (Nat.pow_le_pow_right (by decide) hm))
  simp [this]

theorem polyMod_congr (a b : Nat) : toPoly b ∣ toPoly a + toPoly (polyMod a b) := by
  induction a using Nat.strong_induction_on with
  | _ a ih =>
    rw [polyMod]
    by_cases hb : b = 0
    · simp only [hb, dite_true]
      rw [← toPoly_xor, Nat.xor_self]
    · simp only [hb, dite_false]
      split
      · rw [← toPoly_xor, Nat.xor_self]
        simp
      · next h =>
        set s := b <<< (a.log2 - b.log2) with hs
        set a' := a ^^^ s with ha'
        have hlt : a' < a := polyModStep hb h
        have hkey : toPoly a = toPoly a' + toPoly s := by
          have : a' ^^^ s = a := by
            rw [ha', Nat.xor_assoc, Nat.xor_self, Nat.xor_zero]
          rw [← this, toPoly_xor]
        have hdvd : toPoly b ∣ toPoly s := by
          rw [hs, toPoly_shift]
          exact Dvd.intro _ rfl
        have hsum : toPoly a + toPoly (polyMod a' b)
            = (toPoly a' + toPoly (polyMod a' b)) + toPoly s := by
          rw [hkey]; ring
        have hd : toPoly b ∣ (toPoly a' + toPoly (polyMod a' b)) + toPoly s :=
          dvd_add (ih a' hlt) hdvd
        rwa [← hsum] at hd

theorem poly_add_self (p : Polynomial (ZMod 2)) : p + p = 0 := by
  have h : p + p = C (1 + 1 : ZMod 2) * p := by
    rw [map_add, map_one, add_mul, one_mul]
  have h2 : (1 + 1 : ZMod 2) = 0 := by decide
  rw [h, h2, map_zero, zero_mul]

theorem testBit6_of_and64_eq {x : Nat} (h : x &&& 64 = 0) : x.testBit 6 = false := by
  have h1 : (x &&& 64).testBit 6 = false := by
    rw [h]
    exact Nat.zero_testBit 6
  have h64 : Nat.testBit 64 6 = true := by decide
  rw [Nat.testBit_and, h64, Bool.and_true] at h1
  exact h1

theorem testBit6_of_and64_ne {x : Nat} (h : ¬x &&& 64 = 0) : x.testBit 6 = true := by
  by_contra hc
  apply h
  apply Nat.eq_of_testBit_eq
  intro i
  rw [Nat.testBit_and, Nat.zero_testBit]
  by_cases h6 : i = 6
  · subst h6
    simp [Bool.eq_false_iff.2 hc]
  · have : (64 : Nat).testBit i = false := by
      have h64 : (64 : Nat) = 2 ^ 6 := by norm_num
      rcases Nat.lt_or_ge i 6 with hlt | hge
      · rw [h64]
        rw [Nat.testBit_to_div_mod]
        have : 2 ^ 6 / 2 ^ i = 2 ^ (6 - i) := by
          rw [Nat.pow_div (by omega) (by norm_num)]
        rw [this]
        have h1 : 6 - i ≥ 1 := by omega
        have : 2 ^ (6 - i) % 2 = 0 := by
          have : (2 : ℕ) ∣ 2 ^ (6 - i) := dvd_pow_self 2 (by omega)
          omega
        simp [this]
      · have hgt : 6 < i := by omega
        exact Nat.testBit_lt_two_pow (h64 ▸ Nat.pow_lt_pow_right (by norm_num) hgt)
    simp [this]

/-- One step of GF(64) arithmetic: multiply by `x` and reduce modulo the field
polynomial `x^6+x^4+x^3+x+1` (bit value 91), the representation used by the
watermarking codec's field library for GF(2^6). -/
def xt (b : Nat) : Nat := if (2 * b) &&& 64 = 0 then 2 * b else (2 * b) ^^^ 91

theorem xt_lt {b : Nat} (hb : b < 64) : xt b < 64 := by
  have h128 : 2 * b < 2 ^ 7 := by omega
  rw [xt]
  split
  · next h =>
    apply Nat.lt_pow_two_of_testBit (n := 6)
    intro i hi
    rcases Nat.eq_or_lt_of_le hi with rfl | hgt
    · exact testBit6_of_and64_eq h
    · exact Nat.testBit_lt_two_pow
        (lt_of_lt_of_le h128 (Nat.pow_le_pow_right (by norm_num) hgt))
  · next h =>
    apply Nat.lt_pow_two_of_testBit (n := 6)
    intro i hi
    rw [Nat.testBit_xor]
    rcases Nat.eq_or_lt_of_le hi with rfl | hgt
    · rw [testBit6_of_and64_ne h]
      decide
    · have h1 : (2 * b).testBit i = false :=
        Nat.testBit_lt_two_pow
          (lt_of_lt_of_le h128 (Nat.pow_le_pow_right (by norm_num) hgt))
      have h2 : (91 : Nat).testBit i = false :=
        Nat.testBit_lt_two_pow
          (lt_of_lt_of_le (by norm_num) (Nat.pow_le_pow_right (by norm_num) hgt))
      rw [h1, h2]
      rfl

theorem xt_congr (b : Nat) : toPoly 91 ∣ toPoly (xt b) + X * toPoly b := by
  rw [xt]
  split
  · rw [toPoly_two_mul, poly_add_self]
    exact dvd_zero _
  · rw [toPoly_xor, toPoly_two_mul]
    have h : X * toPoly b + toPoly 91 + X * toPoly b
        = toPoly 91 + (X * toPoly b + X * toPoly b) := by ring
    rw [h, poly_add_self, add_zero]

/-- Bit-serial GF(64) multiplication (structural fuel recursion on the bit
count of the first factor). -/
def gmulAux : Nat → Nat → Nat → Nat
  | 0, _, _ => 0
  | i+1, a, b => (if a % 2 = 1 then b else 0) ^^^ gmulAux i (a / 2) (xt b)

/-- Product in GF(64) on the bit representation. -/
def gmulNat (a b : Nat) : Nat := gmulAux 6 a b

theorem gmulAux_lt : ∀ (i a : Nat) {b : Nat}, b < 64 → gmulAux i a b < 64
  | 0, _, _, _ => by rw [gmulAux]; norm_num
  | i+1, a, b, hb => by
    rw [gmulAux]
    have h64 : (64 : ℕ) = 2 ^ 6 := by norm_num
    rw [h64]
    apply Nat.xor_lt_two_pow
    · split <;> omega
    · rw [← h64]
      exact gmulAux_lt i (a / 2) (xt_lt hb)

theorem gmulAux_zero : ∀ i b, gmulAux i 0 b = 0
  | 0, _ => rfl
  | i+1, b => by
    rw [gmulAux]
    norm_num
    exact gmulAux_zero i (xt b)

theorem toPoly_eq_general (n : Nat) :
    toPoly n = C ((n % 2 : ℕ) : ZMod 2) + X * toPoly (n / 2) := by
  by_cases h : n = 0
  · simp [h]
  · rw [toPoly]
    simp [h]

theorem gmulAux_congr :
    ∀ i a b, toPoly 91 ∣ toPoly (gmulAux i a b) + toPoly (a % 2 ^ i) * toPoly b
  | 0, a, b => by
    rw [gmulAux, pow_zero, Nat.mod_one]
    simp
  | i+1, a, b => by
    rw [gmulAux, toPoly_xor]
    have ihc := gmulAux_congr i (a / 2) (xt b)
    have hx := xt_congr b
    set M := toPoly (a / 2 % 2 ^ i) with hM
    set T := toPoly (gmulAux i (a / 2) (xt b)) with hT
    have h1 : toPoly 91 ∣ M * toPoly (xt b) + M * (X * toPoly b) := by
      have := Dvd.dvd.mul_left hx M
      rwa [mul_add] at this
    have h2 : toPoly 91 ∣ (T + M * toPoly (xt b)) + (M * toPoly (xt b) + M * (X * toPoly b)) :=
      dvd_add ihc h1
    have h3 : (T + M * toPoly (xt b)) + (M * toPoly (xt b) + M * (X * toPoly b))
        = (M * toPoly (xt b) + M * toPoly (xt b)) + (T + M * (X * toPoly b)) := by
      ring
    rw [h3, poly_add_self, zero_add] at h2
    have hmod : toPoly (a % 2 ^ (i + 1)) = C ((a % 2 : ℕ) : ZMod 2) + X * M := by
      rw [toPoly_eq_general (a % 2 ^ (i + 1)), hM]
      have e1 : a % 2 ^ (i + 1) % 2 = a % 2 :=
        Nat.mod_mod_of_dvd a (dvd_pow_self 2 i.succ_ne_zero)
      have e2 : a % 2 ^ (i + 1) / 2 = a / 2 % 2 ^ i := by
        rw [pow_succ, mul_comm (2 ^ i) 2]
        exact Nat.mod_mul_right_div_self a 2 (2 ^ i)
      rw [e1, e2]
    have hite : toPoly (if a % 2 = 1 then b else 0) = C ((a % 2 : ℕ) : ZMod 2) * toPoly b := by
      have h2' : a % 2 = 0 ∨ a % 2 = 1 := Nat.mod_two_eq_zero_or_one a
      rcases h2' with h2' | h2' <;> simp [h2']
    rw [hmod, hite]
    have h4 : C ((a % 2 : ℕ) : ZMod 2) * toPoly b + T
        + (C ((a % 2 : ℕ) : ZMod 2) + X * M) * toPoly b
        = (C ((a % 2 : ℕ) : ZMod 2) * toPoly b + C ((a % 2 : ℕ) : ZMod 2) * toPoly b)
          + (T + M * (X * toPoly b)) := by
      ring
    rw [h4, poly_add_self, zero_add]
    exact h2

theorem gmulNat_congr {a : Nat} (b : Nat) (ha : a < 64) :
    toPoly 91 ∣ toPoly (gmulNat a b) + toPoly a * toPoly b := by
  have h : a % 2 ^ 6 = a := Nat.mod_eq_of_lt (by norm_num at ha ⊢; omega)
  have := gmulAux_congr 6 a b
  rwa [h] at this

/-- Field element of GF(64) as used by the BCH codec: a residue below 64. -/
structure GF64 where
  val : Nat
  lt : val < 64
deriving DecidableEq

instance : Fintype GF64 :=
  Fintype.ofSurjective (fun i : Fin 64 => ⟨i.val, i.isLt⟩) (fun x => ⟨⟨x.val, x.lt⟩, rfl⟩)

theorem GF64.val_inj : ∀ {a b : GF64}, a.val = b.val → a = b
  | ⟨_, _⟩, ⟨_, _⟩, rfl => rfl

theorem log2_91 : Nat.log2 91 = 6 := by
  rw [Nat.log2, if_pos (by norm_num)]
  rw [Nat.log2, if_pos (by norm_num)]
  rw [Nat.log2, if_pos (by norm_num)]
  rw [Nat.log2, if_pos (by norm_num)]
  rw [Nat.log2, if_pos (by norm_num)]
  rw [Nat.log2, if_pos (by norm_num)]
  rw [Nat.log2, if_neg (by norm_num)]

theorem dvd_small_zero {b c : Nat} (hb : b ≠ 0) (hc : c < 2 ^ b.log2)
    (h : toPoly b ∣ toPoly c) : c = 0 := by
  by_contra h0
  have hne : toPoly c ≠ 0 := fun hh => h0 (toPoly_eq_zero.1 hh)
  have hdeg := Polynomial.degree_le_of_dvd h hne
  have hlt := toPoly_degree_lt hc
  have hcoeff : (toPoly b).coeff b.log2 ≠ 0 := by
    rw [toPoly_coeff, testBit_log2 hb]
    simp
  have hge : (b.log2 : WithBot ℕ) ≤ (toPoly b).degree :=
    Polynomial.le_degree_of_ne_zero hcoeff
  exact absurd (lt_of_le_of_lt (le_trans hge hdeg) hlt) (lt_irrefl _)

theorem equal64 {x y : Nat} (hx : x < 64) (hy : y < 64)
    (h : toPoly 91 ∣ toPoly x + toPoly y) : x = y := by
  rw [← toPoly_xor] at h
  have hxor : x ^^^ y < 2 ^ Nat.log2 91 := by
    rw [log2_91]
    exact Nat.xor_lt_two_pow (by norm_num at hx ⊢; omega) (by norm_num at hy ⊢; omega)
  exact Nat.xor_eq_zero.1 (dvd_small_zero (by norm_num) hxor h)

theorem xor_lt64 {a b : Nat} (ha : a < 64) (hb : b < 64) : a ^^^ b < 64 := by
  have h64 : (64 : ℕ) = 2 ^ 6 := by norm_num
  rw [h64] at ha hb ⊢
  exact Nat.xor_lt_two_pow ha hb

def gf64Add (a b : GF64) : GF64 := ⟨a.val ^^^ b.val, xor_lt64 a.lt b.lt⟩

def gf64Mul (a b : GF64) : GF64 := ⟨gmulNat a.val b.val, gmulAux_lt 6 a.val b.lt⟩

def gf64Zero : GF64 := ⟨0, by norm_num⟩

def gf64One : GF64 := ⟨1, by norm_num⟩

/-- Congruence modulo the field polynomial, the working relation for proving
the GF(64) ring laws (in characteristic two, `p - q = p + q`). -/
def PE (p q : Polynomial (ZMod 2)) : Prop := toPoly 91 ∣ p + q

theorem peOfEq {p q : Polynomial (ZMod 2)} (h : p = q) : PE p q := by
  rw [PE, h, poly_add_self]
  exact dvd_zero _

theorem peSymm {p q : Polynomial (ZMod 2)} (h : PE p q) : PE q p := by
  rw [PE, add_comm]
  exact h

theorem peTrans {p q r : Polynomial (ZMod 2)} (h1 : PE p q) (h2 : PE q r) : PE p r := by
  have h3 := dvd_add h1 h2
  have he : (p + q) + (q + r) = (q + q) + (p + r) := by ring
  rw [he, poly_add_self, zero_add] at h3
  exact h3

theorem peMulRight {p q : Polynomial (ZMod 2)} (r : Polynomial (ZMod 2)) (h : PE p q) :
    PE (p * r) (q * r) := by
  have h2 := Dvd.dvd.mul_left h r
  rw [PE]
  have he : p * r + q * r = r * (p + q) := by ring
  rw [he]
  exact h2

theorem peMulLeft {p q : Polynomial (ZMod 2)} (r : Polynomial (ZMod 2)) (h : PE p q) :
    PE (r * p) (r * q) := by
  have := peMulRight r h
  rw [PE] at this ⊢
  have he : r * p + r * q = p * r + q * r := by ring
  rw [he]
  exact this

theorem peAdd {p q r s : Polynomial (ZMod 2)} (h1 : PE p q) (h2 : PE r s) :
    PE (p + r) (q + s) := by
  have h3 := dvd_add h1 h2
  rw [PE]
  have he : (p + r) + (q + s) = (p + q) + (r + s) := by ring
  rw [he]
  exact h3

theorem peMulVal (a b : GF64) :
    PE (toPoly (gf64Mul a b).val) (toPoly a.val * toPoly b.val) :=
  gmulNat_congr b.val a.lt

theorem eqOfPE {a b : GF64} (h : PE (toPoly a.val) (toPoly b.val)) : a = b :=
  GF64.val_inj (equal64 a.lt b.lt h)

theorem toPoly_one : toPoly 1 = 1 := by
  rw [toPoly_eq_general]
  norm_num

theorem gf64AddVal (a b : GF64) : (gf64Add a b).val = a.val ^^^ b.val := rfl

theorem toPoly_gf64Add (a b : GF64) :
    toPoly (gf64Add a b).val = toPoly a.val + toPoly b.val := by
  rw [gf64AddVal, toPoly_xor]

theorem gf64MulAssoc (a b c : GF64) :
    gf64Mul (gf64Mul a b) c = gf64Mul a (gf64Mul b c) := by
  apply eqOfPE
  have h1 : PE (toPoly (gf64Mul (gf64Mul a b) c).val)
      ((toPoly a.val * toPoly b.val) * toPoly c.val) :=
    peTrans (peMulVal _ _) (peMulRight _ (peMulVal a b))
  have h2 : PE (toPoly (gf64Mul a (gf64Mul b c)).val)
      (toPoly a.val * (toPoly b.val * toPoly c.val)) :=
    peTrans (peMulVal _ _) (peMulLeft _ (peMulVal b c))
  exact peTrans h1 (peTrans (peOfEq (mul_assoc _ _ _)) (peSymm h2))

theorem gf64MulComm (a b : GF64) : gf64Mul a b = gf64Mul b a := by
  apply eqOfPE
  exact peTrans (peMulVal a b) (peTrans (peOfEq (mul_comm _ _)) (peSymm (peMulVal b a)))

theorem gf64OneMul (a : GF64) : gf64Mul gf64One a = a := by
  apply eqOfPE
  have h1 : PE (toPoly (gf64Mul gf64One a).val) (toPoly 1 * toPoly a.val) := peMulVal _ _
  rw [toPoly_one, one_mul] at h1
  exact h1

theorem gf64MulOne (a : GF64) : gf64Mul a gf64One = a := by
  rw [gf64MulComm]
  exact gf64OneMul a

theorem gf64LeftDistrib (a b c : GF64) :
    gf64Mul a (gf64Add b c) = gf64Add (gf64Mul a b) (gf64Mul a c) := by
  apply eqOfPE
  have h1 : PE (toPoly (gf64Mul a (gf64Add b c)).val)
      (toPoly a.val * (toPoly b.val + toPoly c.val)) := by
    have := peMulVal a (gf64Add b c)
    rwa [toPoly_gf64Add] at this
  have h2 : PE (toPoly (gf64Add (gf64Mul a b) (gf64Mul a c)).val)
      (toPoly a.val * toPoly b.val + toPoly a.val * toPoly c.val) := by
    rw [toPoly_gf64Add]
    exact peAdd (peMulVal a b) (peMulVal a c)
  exact peTrans h1 (peTrans (peOfEq (mul_add _ _ _)) (peSymm h2))

theorem gf64RightDistrib (a b c : GF64) :
    gf64Mul (gf64Add a b) c = gf64Add (gf64Mul a c) (gf64Mul b c) := by
  rw [gf64MulComm, gf64LeftDistrib, gf64MulComm c a, gf64MulComm c b]

theorem gmulAux_zero_right : ∀ i a, gmulAux i a 0 = 0
  | 0, _ => rfl
  | i+1, a => by
    rw [gmulAux]
    have hxt : xt 0 = 0 := rfl
    rw [hxt, gmulAux_zero_right i (a / 2)]
    split <;> rfl

theorem gf64ZeroMul (a : GF64) : gf64Mul gf64Zero a = gf64Zero :=
  GF64.val_inj (gmulAux_zero 6 a.val)

theorem gf64MulZero (a : GF64) : gf64Mul a gf64Zero = gf64Zero :=
  GF64.val_inj (gmulAux_zero_right 6 a.val)

instance : Zero GF64 := ⟨gf64Zero⟩

instance : One GF64 := ⟨gf64One⟩

instance : Add GF64 := ⟨gf64Add⟩

instance : Mul GF64 := ⟨gf64Mul⟩

instance : Neg GF64 := ⟨fun a => a⟩

instance : CommRing GF64 where
  add := gf64Add
  add_assoc a b c := GF64.val_inj (Nat.xor_assoc a.val b.val c.val)
  zero := gf64Zero
  zero_add a := GF64.val_inj (Nat.zero_xor a.val)
  add_zero a := GF64.val_inj (Nat.xor_zero a.val)
  add_comm a b := GF64.val_inj (Nat.xor_comm a.val b.val)
  neg a := a
  neg_add_cancel a := GF64.val_inj (Nat.xor_self a.val)
  mul := gf64Mul
  mul_assoc := gf64MulAssoc
  nsmul := nsmulRec
  zsmul := zsmulRec
  one := gf64One
  one_mul := gf64OneMul
  mul_one := gf64MulOne
  left_distrib := gf64LeftDistrib
  right_distrib := gf64RightDistrib
  zero_mul := gf64ZeroMul
  mul_zero := gf64MulZero
  mul_comm := gf64MulComm

instance : Nontrivial GF64 := ⟨⟨0, 1, by decide⟩⟩

set_option maxRecDepth 100000 in
theorem gf64_no_zero_divisors : ∀ a b : GF64, a * b = 0 → a = 0 ∨ b = 0 := by decide

instance : NoZeroDivisors GF64 := ⟨fun {a b} h => gf64_no_zero_divisors a b h⟩

/-- Primitive element of GF(64) (the class of `x`), written `α` in the BCH
construction. -/
def gfAlpha : GF64 := ⟨2, by norm_num⟩

set_option maxRecDepth 100000 in
theorem alpha_pows_nodup : ((List.range 63).map (fun j => gfAlpha ^ j)).Nodup := by
  decide

set_option maxRecDepth 100000 in
theorem alpha_pow_ne_zero_fin : ∀ j : Fin 63, gfAlpha ^ (j : Nat) ≠ 0 := by decide

theorem alpha_pow_ne_zero {j : Nat} (hj : j < 63) : gfAlpha ^ j ≠ 0 :=
  alpha_pow_ne_zero_fin ⟨j, hj⟩

theorem alpha_pow_inj {i j : Nat} (hi : i < 63) (hj : j < 63)
    (h : gfAlpha ^ i = gfAlpha ^ j) : i = j :=
  List.inj_on_of_nodup_map alpha_pows_nodup
    (List.mem_range.2 hi) (List.mem_range.2 hj) h

/-- Horner evaluation of the GF(2) polynomial `c` (bit representation) at a
point of GF(64), with structural fuel so that concrete instances compute. -/
def gevalAux : Nat → Nat → GF64 → GF64
  | 0, _, _ => 0
  | f+1, c, x => if c = 0 then 0 else (if c % 2 = 1 then 1 else 0) + x * gevalAux f (c / 2) x

/-- Evaluation of the GF(2) polynomial `c` at a point of GF(64). -/
def geval (c : Nat) (x : GF64) : GF64 := gevalAux c c x

theorem gevalAux_zero_c : ∀ (f : Nat) (x : GF64), gevalAux f 0 x = 0
  | 0, _ => rfl
  | _+1, _ => by rw [gevalAux, if_pos rfl]

theorem gevalAux_fuel (c : Nat) : ∀ (f g : Nat) (x : GF64), c ≤ f → c ≤ g →
    gevalAux f c x = gevalAux g c x := by
  induction c using Nat.strong_induction_on with
  | _ c ih =>
    intro f g x hf hg
    by_cases hc : c = 0
    · subst hc
      rw [gevalAux_zero_c, gevalAux_zero_c]
    · have hc1 : 1 ≤ c := Nat.pos_of_ne_zero hc
      cases f with
      | zero => omega
      | succ f =>
        cases g with
        | zero => omega
        | succ g =>
          rw [gevalAux, gevalAux, if_neg hc, if_neg hc]
          have hdiv : c / 2 < c := Nat.div_lt_self hc1 one_lt_two
          rw [ih (c / 2) hdiv f g x (by omega) (by omega)]

theorem geval_eq (c : Nat) (x : GF64) :
    geval c x = if c = 0 then 0 else (if c % 2 = 1 then 1 else 0) + x * geval (c / 2) x := by
  by_cases hc : c = 0
  · simp [hc, geval, gevalAux_zero_c]
  · rw [geval, geval]
    cases c with
    | zero => exact absurd rfl hc
    | succ n =>
      rw [gevalAux, if_neg hc]
      rw [gevalAux_fuel ((n + 1) / 2) n ((n + 1) / 2) x (by omega) (le_refl _), if_neg hc]

/-- Generator polynomial (bit representation, degree 24) of the narrow-sense
BCH code with block length 63 and design distance 9 used by the codec.
Modelled from the spec: the external BCH library fixes this generator at
build time from the parameters `n = 63`, `d = 2*4+1` shared by both call
sites; it is the product of the minimal polynomials of `α, α^3, α^5, α^7`
over GF(2) for the GF(64) representation above. -/
def gPoly : Nat := 28171681

set_option maxRecDepth 100000 in
theorem gPoly_roots : ∀ i : Fin 8, geval gPoly (gfAlpha ^ ((i : Nat) + 1)) = 0 := by
  decide

/-- Inclusion of GF(2) into GF(64) as a ring homomorphism. -/
def embed2Hom : ZMod 2 →+* GF64 where
  toFun z := if z = 1 then 1 else 0
  map_one' := by decide
  map_mul' := by decide
  map_zero' := by decide
  map_add' := by decide

theorem geval_eval₂ (c : Nat) (x : GF64) :
    geval c x = Polynomial.eval₂ embed2Hom x (toPoly c) := by
  induction c using Nat.strong_induction_on with
  | _ c ih =>
    by_cases hc : c = 0
    · simp [hc, geval_eq, Polynomial.eval₂_zero]
    · rw [geval_eq, if_neg hc, toPoly_eq_general c, Polynomial.eval₂_add,
        Polynomial.eval₂_C, Polynomial.eval₂_mul, Polynomial.eval₂_X,
        ← ih (c / 2) (Nat.div_lt_self (Nat.pos_of_ne_zero hc) one_lt_two)]
      have h2 : c % 2 = 0 ∨ c % 2 = 1 := Nat.mod_two_eq_zero_or_one c
      rcases h2 with h2 | h2 <;> simp [h2]

theorem polyMod_eq_zero_iff {a b : Nat} (hb : b ≠ 0) :
    polyMod a b = 0 ↔ toPoly b ∣ toPoly a := by
  constructor
  · intro h
    have hc := polyMod_congr a b
    rwa [h, toPoly_zero, add_zero] at hc
  · intro h
    have hc := polyMod_congr a b
    have h2 := dvd_add hc h
    have he : (toPoly a + toPoly (polyMod a b)) + toPoly a
        = toPoly (polyMod a b) + (toPoly a + toPoly a) := by ring
    rw [he, poly_add_self, add_zero] at h2
    exact dvd_small_zero hb (polyMod_lt a hb) h2

theorem geval_eq_zero_of_dvd {c : Nat} (x : GF64) (hroot : geval gPoly x = 0)
    (hdvd : toPoly gPoly ∣ toPoly c) : geval c x = 0 := by
  obtain ⟨q, hq⟩ := hdvd
  rw [geval_eval₂, hq, Polynomial.eval₂_mul, ← geval_eval₂, hroot, zero_mul]

theorem gf64_add_self (a : GF64) : a + a = 0 :=
  GF64.val_inj (Nat.xor_self a.val)

theorem gf64_eq_of_add_eq_zero {a b : GF64} (h : a + b = 0) : a = b :=
  GF64.val_inj (Nat.xor_eq_zero.1 (congrArg GF64.val h))

theorem weight_zero_iff {n : Nat} : weight n = 0 ↔ n = 0 := by
  constructor
  · intro h
    induction n using Nat.strong_induction_on with
    | _ n ih =>
      by_cases hn : n = 0
      · exact hn
      · rw [weight] at h
        simp only [hn, dite_false] at h
        have h1 : n % 2 = 0 := by omega
        have h2 : weight (n / 2) = 0 := by omega
        have h3 := ih (n / 2) (Nat.div_lt_self (Nat.pos_of_ne_zero hn) one_lt_two) h2
        omega
  · intro h
    subst h
    rw [weight]
    rfl

theorem bitlist_length (n : Nat) : (bitlist n).length = weight n := by
  induction n using Nat.strong_induction_on with
  | _ n ih =>
    by_cases hn : n = 0
    · subst hn
      rw [bitlist, weight]
      rfl
    · rw [bitlist, weight]
      simp only [hn, dite_false]
      rw [List.length_append, List.length_map,
        ih (n / 2) (Nat.div_lt_self (Nat.pos_of_ne_zero hn) one_lt_two)]
      have h2 : n % 2 = 0 ∨ n % 2 = 1 := Nat.mod_two_eq_zero_or_one n
      rcases h2 with h2 | h2 <;> simp [h2]

theorem bitlist_nodup (n : Nat) : (bitlist n).Nodup := by
  induction n using Nat.strong_induction_on with
  | _ n ih =>
    by_cases hn : n = 0
    · subst hn
      rw [bitlist]
      exact List.nodup_nil
    · rw [bitlist]
      simp only [hn, dite_false]
      have hmap : ((bitlist (n / 2)).map (· + 1)).Nodup :=
        List.Nodup.map (fun a b h => by omega)
          (ih (n / 2) (Nat.div_lt_self (Nat.pos_of_ne_zero hn) one_lt_two))
      have h2 : n % 2 = 0 ∨ n % 2 = 1 := Nat.mod_two_eq_zero_or_one n
      rcases h2 with h2 | h2
      · rw [if_neg (by omega), List.nil_append]
        exact hmap
      · rw [if_pos h2, List.singleton_append, List.nodup_cons]
        refine ⟨fun hmem => ?_, hmap⟩
        obtain ⟨j, _, hj⟩ := List.mem_map.1 hmem
        omega

theorem mem_bitlist_lt {n k j : Nat} (hn : n < 2 ^ k) (hj : j ∈ bitlist n) : j < k := by
  induction n using Nat.strong_induction_on generalizing k j with
  | _ n ih =>
    by_cases h0 : n = 0
    · subst h0
      rw [bitlist] at hj
      simp at hj
    · rw [bitlist] at hj
      simp only [h0, dite_false] at hj
      have hk : k ≠ 0 := by
        intro hk
        subst hk
        simp at hn
        omega
      obtain ⟨k', rfl⟩ : ∃ k', k = k' + 1 := ⟨k - 1, by omega⟩
      rcases List.mem_append.1 hj with hpre | hmap
      · have : j = 0 := by
          rcases Nat.mod_two_eq_zero_or_one n with h2 | h2 <;> simp [h2] at hpre
          · exact hpre
        omega
      · obtain ⟨j', hj', rfl⟩ := List.mem_map.1 hmap
        have hdiv : n / 2 < 2 ^ k' := by
          rw [pow_succ] at hn
          omega
        have := ih (n / 2) (Nat.div_lt_self (Nat.pos_of_ne_zero h0) one_lt_two) hdiv hj'
        omega

theorem geval_bitlist (c : Nat) (x : GF64) :
    geval c x = ((bitlist c).map (fun j => x ^ j)).sum := by
  induction c using Nat.strong_induction_on with
  | _ c ih =>
    by_cases hc : c = 0
    · subst hc
      rw [geval_eq, bitlist]
      simp
    · rw [geval_eq, if_neg hc, bitlist]
      simp only [hc, dite_false]
      rw [List.map_append, List.sum_append, List.map_map,
        ih (c / 2) (Nat.div_lt_self (Nat.pos_of_ne_zero hc) one_lt_two)]
      have hcomp : ((fun j => x ^ j) ∘ (· + 1)) = fun j => x * x ^ j := by
        funext j
        simp [pow_succ']
      rw [hcomp, List.sum_map_mul_left]
      rcases Nat.mod_two_eq_zero_or_one c with h2 | h2 <;> simp [h2]

theorem sum_swap_eval (n : Nat) (q : Nat → GF64) (xs : List GF64) :
    (xs.map (fun x => ∑ i ∈ Finset.range n, q i * x ^ i)).sum
      = ∑ i ∈ Finset.range n, q i * (xs.map (fun x => x ^ i)).sum := by
  induction xs with
  | nil => simp
  | cons x xs ih =>
    have hterm : ∀ i, q i * ((x :: xs).map (fun t => t ^ i)).sum
        = q i * x ^ i + q i * (xs.map (fun t => t ^ i)).sum := by
      intro i
      rw [List.map_cons, List.sum_cons, mul_add]
    rw [List.map_cons, List.sum_cons, ih,
      Finset.sum_congr rfl (fun i _ => hterm i), Finset.sum_add_distrib]

theorem linfactors (T : List GF64) :
    ((T.map (fun y => X + C y)).prod ≠ 0) ∧
      ((T.map (fun y => X + C y)).prod.natDegree = T.length) := by
  induction T with
  | nil => simp
  | cons y T ih =>
    rw [List.map_cons, List.prod_cons]
    constructor
    · exact mul_ne_zero (Polynomial.X_add_C_ne_zero y) ih.1
    · rw [Polynomial.natDegree_mul (Polynomial.X_add_C_ne_zero y) ih.1,
        Polynomial.natDegree_X_add_C, ih.2, List.length_cons]
      omega

theorem power_sums_vanish (xs : List GF64) (hnd : xs.Nodup)
    (hnz : ∀ x ∈ xs, x ≠ 0) (hlen : xs.length ≤ 8)
    (hS : ∀ i, 1 ≤ i → i ≤ 8 → (xs.map (fun x => x ^ i)).sum = 0) :
    xs = [] := by
  cases xs with
  | nil => rfl
  | cons x0 T =>
    exfalso
    set R : Polynomial GF64 := (T.map (fun y => X + C y)).prod with hR
    set Q : Polynomial GF64 := X * R with hQ
    have hRlin := linfactors T
    have hQne : Q ≠ 0 := mul_ne_zero Polynomial.X_ne_zero hRlin.1
    have hQdeg : Q.natDegree = T.length + 1 := by
      rw [hQ, Polynomial.natDegree_mul Polynomial.X_ne_zero hRlin.1,
        Polynomial.natDegree_X, hRlin.2]
      omega
    have hQ0 : Q.coeff 0 = 0 := by
      rw [hQ, Polynomial.mul_coeff_zero, Polynomial.coeff_X_zero, zero_mul]
    have hevalT : ∀ y ∈ T, Q.eval y = 0 := by
      intro y hy
      rw [hQ, Polynomial.eval_mul, Polynomial.eval_list_prod, List.map_map]
      apply mul_eq_zero_of_right
      apply List.prod_eq_zero
      refine List.mem_map.2 ⟨y, hy, ?_⟩
      simp [gf64_add_self]
    have hevalx0 : Q.eval x0 ≠ 0 := by
      rw [hQ, Polynomial.eval_mul, Polynomial.eval_list_prod, List.map_map]
      apply mul_ne_zero
      · rw [Polynomial.eval_X]
        exact hnz x0 (List.mem_cons_self x0 T)
      · apply List.prod_ne_zero
        intro hz
        obtain ⟨y, hy, hy0⟩ := List.mem_map.1 hz
        simp only [Function.comp_apply, Polynomial.eval_add, Polynomial.eval_X,
          Polynomial.eval_C] at hy0
        have hxy : x0 = y := gf64_eq_of_add_eq_zero hy0
        exact (List.nodup_cons.1 hnd).1 (hxy ▸ hy)
    have hsum : ((x0 :: T).map (fun x => Q.eval x)).sum = Q.eval x0 := by
      rw [List.map_cons, List.sum_cons]
      have : (T.map (fun x => Q.eval x)).sum = 0 := by
        have hmap : T.map (fun x => Q.eval x) = T.map (fun _ => (0 : GF64)) :=
          List.map_congr_left (fun y hy => hevalT y hy)
        rw [hmap]
        simp
      rw [this, add_zero]
    have hsum2 : ((x0 :: T).map (fun x => Q.eval x)).sum = 0 := by
      have heval : ∀ x : GF64, Q.eval x
          = ∑ i ∈ Finset.range (Q.natDegree + 1), Q.coeff i * x ^ i :=
        fun x => Polynomial.eval_eq_sum_range x
      have hmap : (x0 :: T).map (fun x => Q.eval x)
          = (x0 :: T).map (fun x => ∑ i ∈ Finset.range (Q.natDegree + 1), Q.coeff i * x ^ i) :=
        List.map_congr_left (fun x _ => heval x)
      rw [hmap, sum_swap_eval]
      apply Finset.sum_eq_zero
      intro i hi
      rcases Nat.eq_zero_or_pos i with hi0 | hip
      · subst hi0
        rw [hQ0, zero_mul]
      · have hle : i ≤ 8 := by
          have := Finset.mem_range.1 hi
          have hlen2 : T.length + 1 ≤ 8 := by simpa using hlen
          omega
        rw [hS i hip hle, mul_zero]
    exact hevalx0 (hsum ▸ hsum2)

/-- BCH bound for the codec's generator: every nonzero multiple of the
generator polynomial inside the 63-bit block has Hamming weight at least 9,
the design distance of the code. -/
theorem min_weight {c : Nat} (hc : c < 2 ^ 63) (h0 : c ≠ 0)
    (hdvd : toPoly gPoly ∣ toPoly c) : 9 ≤ weight c := by
  by_contra hcon
  have hw : weight c ≤ 8 := by omega
  set xs : List GF64 := (bitlist c).map (fun j => gfAlpha ^ j) with hxs
  have hnd : xs.Nodup := by
    apply List.Nodup.map_on
    · intro a ha b hb hab
      exact alpha_pow_inj (mem_bitlist_lt hc ha) (mem_bitlist_lt hc hb) hab
    · exact bitlist_nodup c
  have hnz : ∀ x ∈ xs, x ≠ 0 := by
    intro x hx
    obtain ⟨j, hj, rfl⟩ := List.mem_map.1 hx
    exact alpha_pow_ne_zero (mem_bitlist_lt hc hj)
  have hlen : xs.length ≤ 8 := by
    rw [hxs, List.length_map, bitlist_length]
    exact hw
  have hS : ∀ i, 1 ≤ i → i ≤ 8 → (xs.map (fun x => x ^ i)).sum = 0 := by
    intro i h1 h8
    rw [hxs, List.map_map]
    have hcomp : ((fun x => x ^ i) ∘ (fun j => gfAlpha ^ j))
        = fun j => (gfAlpha ^ i) ^ j := by
      funext j
      exact pow_right_comm gfAlpha j i
    rw [hcomp, ← geval_bitlist]
    have hroot : geval gPoly (gfAlpha ^ i) = 0 := by
      have := gPoly_roots ⟨i - 1, by omega⟩
      have he : (i - 1) + 1 = i := by omega
      rwa [he] at this
    exact geval_eq_zero_of_dvd _ hroot hdvd
  have hnil := power_sums_vanish xs hnd hnz hlen hS
  rw [hxs, List.map_eq_nil_iff] at hnil
  have hlen0 : (bitlist c).length = 0 := by rw [hnil]; rfl
  rw [bitlist_length] at hlen0
  exact h0 (weight_zero_iff.1 hlen0)

theorem weight_eq_general (n : Nat) : weight n = n % 2 + weight (n / 2) := by
  by_cases hn : n = 0
  · subst hn
    rw [weight]
    rfl
  · rw [weight]
    simp [hn]

theorem xor_div_two (a b : Nat) : (a ^^^ b) / 2 = a / 2 ^^^ b / 2 := by
  apply Nat.eq_of_testBit_eq
  intro i
  rw [Nat.testBit_div_two, Nat.testBit_xor, Nat.testBit_xor,
    Nat.testBit_div_two, Nat.testBit_div_two]

theorem weight_xor_le_aux : ∀ (n a b : Nat), a + b ≤ n →
    weight (a ^^^ b) ≤ weight a + weight b := by
  intro n
  induction n using Nat.strong_induction_on with
  | _ n ih =>
    intro a b hab
    by_cases h0 : a = 0 ∧ b = 0
    · rw [h0.1, h0.2]
      simp [weight]
    · have hpos : 0 < a + b := by omega
      rw [weight_eq_general (a ^^^ b), weight_eq_general a, weight_eq_general b,
        xor_div_two]
      have hdiv : a / 2 + b / 2 < n := by omega
      have hrec := ih (a / 2 + b / 2) hdiv (a / 2) (b / 2) (le_refl _)
      have hmod : (a ^^^ b) % 2 ≤ a % 2 + b % 2 := by
        have ha := Nat.mod_two_eq_zero_or_one a
        have hb := Nat.mod_two_eq_zero_or_one b
        have hx : (a ^^^ b) % 2 = a % 2 ^^^ b % 2 := by
          have h1 := Nat.testBit_zero (a ^^^ b)
          have h2 := Nat.testBit_zero a
          have h3 := Nat.testBit_zero b
          rw [Nat.testBit_xor] at h1
          rcases ha with ha | ha <;> rcases hb with hb | hb <;>
            simp [ha, hb] at h1 ⊢ <;> omega
        rcases ha with ha | ha <;> rcases hb with hb | hb <;> rw [hx, ha, hb] <;> decide
      omega

theorem weight_xor_le (a b : Nat) : weight (a ^^^ b) ≤ weight a + weight b :=
  weight_xor_le_aux (a + b) a b (le_refl _)

theorem weight_two_pow_add {n e : Nat} (he : e < 2 ^ n) :
    weight (2 ^ n + e) = 1 + weight e := by
  induction n generalizing e with
  | zero =>
    have he0 : e = 0 := by omega
    subst he0
    have h1 : (2 : ℕ) ^ 0 + 0 = 1 := by norm_num
    rw [h1, weight_eq_general 1]
  | succ n ih =>
    have hmod : (2 ^ (n + 1) + e) % 2 = e % 2 := by
      have : 2 ^ (n + 1) % 2 = 0 := by
        rw [pow_succ]
        omega
      omega
    have hdiv : (2 ^ (n + 1) + e) / 2 = 2 ^ n + e / 2 := by
      rw [pow_succ]
      omega
    rw [weight_eq_general (2 ^ (n + 1) + e), hmod, hdiv,
      ih (by rw [pow_succ] at he; omega), weight_eq_general e]
    omega

/-- Error patterns searched by the bounded-distance decoder: all values below
`2 ^ n` of Hamming weight at most `w`. -/
def pats : Nat → Nat → List Nat
  | _, 0 => [0]
  | 0, _+1 => [0]
  | w+1, n+1 => pats (w+1) n ++ (pats w n).map (fun e => 2 ^ n + e)

theorem pats_sound : ∀ w n e, e ∈ pats w n → e < 2 ^ n ∧ weight e ≤ w
  | w, 0, e, h => by
    rw [pats] at h
    simp at h
    subst h
    exact ⟨by norm_num, by simp [weight]⟩
  | 0, n+1, e, h => by
    rw [pats] at h
    simp at h
    subst h
    exact ⟨Nat.two_pow_pos _, by simp [weight]⟩
  | w+1, n+1, e, h => by
    rw [pats] at h
    rcases List.mem_append.1 h with h1 | h1
    · obtain ⟨hlt, hw⟩ := pats_sound (w+1) n e h1
      refine ⟨lt_trans hlt ?_, hw⟩
      rw [pow_succ]
      have := Nat.two_pow_pos n
      omega
    · obtain ⟨e', he', rfl⟩ := List.mem_map.1 h1
      obtain ⟨hlt, hw⟩ := pats_sound w n e' he'
      constructor
      · rw [pow_succ]
        omega
      · rw [weight_two_pow_add hlt]
        omega

theorem pats_complete : ∀ w n e, e < 2 ^ n → weight e ≤ w → e ∈ pats w n
  | w, 0, e, hlt, _ => by
    rw [pats]
    simp at hlt ⊢
    omega
  | 0, n+1, e, _, hw => by
    rw [pats]
    have : weight e = 0 := by omega
    simp [weight_zero_iff.1 this]
  | w+1, n+1, e, hlt, hw => by
    rw [pats]
    by_cases hsm : e < 2 ^ n
    · exact List.mem_append_left _ (pats_complete (w+1) n e hsm hw)
    · apply List.mem_append_right
      have he : e = 2 ^ n + (e - 2 ^ n) := by omega
      have hlt2 : e - 2 ^ n < 2 ^ n := by
        rw [pow_succ] at hlt
        omega
      have hwrec : weight (e - 2 ^ n) ≤ w := by
        have := weight_two_pow_add hlt2
        rw [← he] at this
        omega
      refine List.mem_map.2 ⟨e - 2 ^ n, pats_complete w n _ hlt2 hwrec, he.symm⟩

theorem find?_eq_of_unique {α : Type} (l : List α) (p : α → Bool) (x : α)
    (hx : x ∈ l) (hpx : p x = true) (huniq : ∀ y ∈ l, p y = true → y = x) :
    l.find? p = some x := by
  induction l with
  | nil => exact absurd hx (List.not_mem_nil x)
  | cons a l ih =>
    by_cases hpa : p a = true
    · rw [List.find?_cons_of_pos _ hpa, huniq a (List.mem_cons_self a l) hpa]
    · rw [List.find?_cons_of_neg _ (by simpa using hpa)]
      have hxl : x ∈ l := by
        rcases List.mem_cons.1 hx with rfl | hxl
        · exact absurd hpx hpa
        · exact hxl
      exact ih hxl (fun y hy hpy => huniq y (List.mem_cons_of_mem a hy) hpy)

theorem gPoly_ne_zero : gPoly ≠ 0 := by
  rw [gPoly]
  norm_num

theorem log2_gPoly : Nat.log2 gPoly = 24 := by
  have h1 : 24 ≤ Nat.log2 gPoly :=
    (Nat.le_log2 gPoly_ne_zero).2 (by rw [gPoly]; norm_num)
  have h2 : Nat.log2 gPoly < 25 :=
    (Nat.log2_lt gPoly_ne_zero).2 (by rw [gPoly]; norm_num)
  omega

/-- Systematic BCH(63, 39) encoding of a 39-bit identifier, as performed by
`bch.encode` inside `_send_to_ai_server` (`image_service.py` lines 243-251):
the message occupies the high 39 bits of the 63-bit codeword and the parity
(remainder of the shifted message by the generator) the low 24 bits.
Modelled from the spec: systematic encoding is the external BCH library's
fixed behaviour for these build-time parameters. -/
def bchEncode (imageId : Nat) : Nat :=
  (imageId <<< 24) ^^^ polyMod (imageId <<< 24) gPoly

theorem bchEncode_mod (imageId : Nat) : polyMod (bchEncode imageId) gPoly = 0 := by
  rw [bchEncode, polyMod_eq_zero_iff gPoly_ne_zero, toPoly_xor]
  exact polyMod_congr (imageId <<< 24) gPoly

theorem bchEncode_lt {imageId : Nat} (h : imageId < 2 ^ 39) : bchEncode imageId < 2 ^ 63 := by
  rw [bchEncode]
  have h1 : imageId <<< 24 < 2 ^ 63 := by
    rw [Nat.shiftLeft_eq]
    calc imageId * 2 ^ 24 < 2 ^ 39 * 2 ^ 24 :=
          (Nat.mul_lt_mul_right (by norm_num : (0:ℕ) < 2 ^ 24)).2 h
    _ = 2 ^ 63 := by norm_num
  have h2 : polyMod (imageId <<< 24) gPoly < 2 ^ 63 := by
    have := polyMod_lt (imageId <<< 24) gPoly_ne_zero
    rw [log2_gPoly] at this
    calc polyMod (imageId <<< 24) gPoly < 2 ^ 24 := this
    _ ≤ 2 ^ 63 := by norm_num
  exact Nat.xor_lt_two_pow h1 h2

theorem shiftRight24_xor_small {a p : Nat} (hp : p < 2 ^ 24) :
    ((a <<< 24) ^^^ p) >>> 24 = a := by
  apply Nat.eq_of_testBit_eq
  intro i
  rw [Nat.testBit_shiftRight, Nat.testBit_xor, Nat.testBit_shiftLeft]
  have h1 : p.testBit (24 + i) = false :=
    Nat.testBit_lt_two_pow
      (lt_of_lt_of_le hp (Nat.pow_le_pow_right (by norm_num) (by omega)))
  have h2 : 24 + i ≥ 24 := by omega
  have h3 : 24 + i - 24 = i := by omega
  simp [h1, h2, h3]

theorem bchEncode_shift (imageId : Nat) : bchEncode imageId >>> 24 = imageId := by
  rw [bchEncode]
  apply shiftRight24_xor_small
  have := polyMod_lt (imageId <<< 24) gPoly_ne_zero
  rwa [log2_gPoly] at this

/-- Bounded-distance decoder of the BCH(63, 39) code applied by
`_send_to_ai_server_for_verification` (`image_service.py` lines 490-510)
through `bch.decode(..., errors=True)`. Modelled from the spec: decode
"runs bounded-distance error correction" and, on success, "returns both the
corrected message and an error count"; here the unique error pattern of
weight at most 4 turning the received 63-bit word into a codeword is
searched, the corrected message is the codeword's high 39 bits, and the
count is the pattern's weight; `none` is the Uncorrectable outcome. -/
def bchDecode (received : Nat) : Option (Nat × Nat) :=
  match (pats 4 63).find? (fun e => polyMod (received ^^^ e) gPoly == 0) with
  | some e => some (((received ^^^ e) >>> 24), weight e)
  | none => none

theorem xor_shuffle (a b c : Nat) : ((a ^^^ b) ^^^ c) ^^^ a = b ^^^ c := by
  apply Nat.eq_of_testBit_eq
  intro i
  simp only [Nat.testBit_xor]
  cases a.testBit i <;> cases b.testBit i <;> cases c.testBit i <;> decide

/-- Core correctness of the codec model: a codeword corrupted in at most
four bit positions decodes to the original identifier together with the
exact number of corrupted positions. -/
theorem bchDecode_correct {imageId e : Nat} (hid : imageId < 2 ^ 39)
    (he : e < 2 ^ 63) (hw : weight e ≤ 4) :
    bchDecode (bchEncode imageId ^^^ e) = some (imageId, weight e) := by
  have hcancel : (bchEncode imageId ^^^ e) ^^^ e = bchEncode imageId := by
    rw [Nat.xor_assoc, Nat.xor_self, Nat.xor_zero]
  have hmem : e ∈ pats 4 63 := pats_complete 4 63 e he hw
  have hpe : (polyMod ((bchEncode imageId ^^^ e) ^^^ e) gPoly == 0) = true := by
    rw [hcancel, bchEncode_mod]
    rfl
  have hdvd_enc : toPoly gPoly ∣ toPoly (bchEncode imageId) :=
    (polyMod_eq_zero_iff gPoly_ne_zero).1 (bchEncode_mod imageId)
  have huniq : ∀ e2 ∈ pats 4 63,
      (polyMod ((bchEncode imageId ^^^ e) ^^^ e2) gPoly == 0) = true → e2 = e := by
    intro e2 hmem2 hp2
    obtain ⟨he2lt, he2w⟩ := pats_sound 4 63 e2 hmem2
    by_contra hne
    have hd1 : toPoly gPoly ∣ toPoly ((bchEncode imageId ^^^ e) ^^^ e2) :=
      (polyMod_eq_zero_iff gPoly_ne_zero).1 (by simpa using hp2)
    have hxe : ((bchEncode imageId ^^^ e) ^^^ e2) ^^^ bchEncode imageId = e ^^^ e2 :=
      xor_shuffle _ _ _
    have hdvd_d : toPoly gPoly ∣ toPoly (e ^^^ e2) := by
      rw [← hxe, toPoly_xor]
      exact dvd_add hd1 hdvd_enc
    have hd_ne : e ^^^ e2 ≠ 0 := fun hz => hne (Nat.xor_eq_zero.1 hz).symm
    have hd_lt : e ^^^ e2 < 2 ^ 63 := Nat.xor_lt_two_pow he he2lt
    have hd_w : weight (e ^^^ e2) ≤ 8 :=
      le_trans (weight_xor_le e e2) (by omega)
    have := min_weight hd_lt hd_ne hdvd_d
    omega
  have hfind := find?_eq_of_unique (pats 4 63)
    (fun e2 => polyMod ((bchEncode imageId ^^^ e) ^^^ e2) gPoly == 0) e hmem hpe huniq
  rw [bchDecode, hfind]
  show some (((bchEncode imageId ^^^ e) ^^^ e) >>> 24, weight e) = some (imageId, weight e)
  rw [hcancel, bchEncode_shift]

/-- Conversion of a natural number to its zero-padded binary character string
of the given length, most significant character first, as Python format
`f"{image_id:039b}"` does in `_send_to_ai_server`. -/
def natToBits : Nat → Nat → List Bool
  | 0, _ => []
  | l+1, n => natToBits l (n / 2) ++ [decide (n % 2 = 1)]

/-- Conversion of a binary character string (most significant first) back to
a natural number, as Python `int(decoded_bit, 2)` does in
`_send_to_ai_server_for_verification`. -/
def bitsToNat (bits : List Bool) : Nat :=
  bits.foldl (fun acc b => 2 * acc + (if b then 1 else 0)) 0

theorem bitsToNat_append_bit (bs : List Bool) (b : Bool) :
    bitsToNat (bs ++ [b]) = 2 * bitsToNat bs + (if b then 1 else 0) := by
  rw [bitsToNat, List.foldl_append]
  rfl

theorem bitsToNat_natToBits : ∀ (l n : Nat), n < 2 ^ l → bitsToNat (natToBits l n) = n
  | 0, n, h => by
    simp at h
    simp [h, natToBits, bitsToNat]
  | l+1, n, h => by
    rw [natToBits, bitsToNat_append_bit,
      bitsToNat_natToBits l (n / 2) (by rw [pow_succ] at h; omega)]
    rcases Nat.mod_two_eq_zero_or_one n with h2 | h2 <;> simp [h2] <;> omega

/-- The 64-character `bit_input` payload built by `_send_to_ai_server`
(`image_service.py` lines 243-251): the 63 characters of the BCH codeword of
the 39-bit zero-padded identifier, followed by one framing character `'0'`
(`codeword_string = "".join(str(bit) for bit in codeword_array) + '0'`). -/
def encodePayload (imageId : Nat) : List Bool :=
  natToBits 63 (bchEncode imageId) ++ [false]

/-- The decoding step of `_send_to_ai_server_for_verification`
(`image_service.py` lines 490-510): the last (framing) character is stripped
(`recovered_bit[0:-1]`), the remaining 63 characters are BCH-decoded, and on
success the corrected message with the corrected-error count is produced. -/
def decodePayload (payload : List Bool) : Option (Nat × Nat) :=
  bchDecode (bitsToNat payload.dropLast)

/-- Result of `bch.decode(recovered_bit_array, errors=True)` at the
verification call site. Modelled from the spec: the external BCH library
performs bounded-distance correction and reports the corrected-error count;
when correction is impossible it does not raise but flags the failure with
an error count of `-1`, returning the uncorrected systematic message bits. -/
def galoisDecode (received : Nat) : Nat × Int :=
  match bchDecode received with
  | some (message, errors) => (message, (errors : Int))
  | none => (received >>> 24, -1)

/-- Identifier recovery exactly as coded in
`_send_to_ai_server_for_verification` (`image_service.py` lines 500-510):
`decoded_bit_array[0]` is joined and converted with `int(decoded_bit, 2)`
unconditionally - the error count `decoded_bit_array[1]` (in particular the
`-1` uncorrectable flag) is never consulted, so even an uncorrectable
payload yields an identifier value. -/
def recoveredImageId (payload : List Bool) : Nat :=
  (galoisDecode (bitsToNat payload.dropLast)).1

/-- C1. Codec round-trip: for every identifier below `2 ^ 39`, encoding it
(zero-padded to 39 bits, BCH(63, d = 9) parity appended, plus one framing
character `'0'`) and decoding the resulting 64-character payload returns
exactly the same identifier with a corrected-error count of zero. -/
theorem C1_codec_round_trip (imageId : Nat) (hid : imageId < 2 ^ 39) :
    decodePayload (encodePayload imageId) = some (imageId, 0) := by
  rw [encodePayload, decodePayload, List.dropLast_concat,
    bitsToNat_natToBits 63 _ (bchEncode_lt hid)]
  have h0 : weight 0 = 0 := by
    rw [weight]
    rfl
  have h := bchDecode_correct hid (e := 0) (Nat.two_pow_pos 63) (by omega)
  rwa [Nat.xor_zero, h0] at h

theorem C1_codec_round_trip_witness :
    decodePayload (encodePayload 123456) = some (123456, 0) :=
  C1_codec_round_trip 123456 (by norm_num)

/-- C2. Bounded correction: for every identifier below `2 ^ 39` and every
set of at most 4 bit positions within the 63-bit codeword of its encoding -
the set represented by its indicator word `e` (bit `p` of `e` is set exactly
when position `p` is flipped, so the number of flipped bits is `weight e`) -
flipping those bits and then decoding still returns the identifier together
with the exact number of flipped bits. -/
theorem C2_bounded_correction (imageId : Nat) (hid : imageId < 2 ^ 39)
    (e : Nat) (he : e < 2 ^ 63) (hw : weight e ≤ 4) :
    decodePayload (natToBits 63 (bchEncode imageId ^^^ e) ++ [false])
      = some (imageId, weight e) := by
  rw [decodePayload, List.dropLast_concat,
    bitsToNat_natToBits 63 _ (Nat.xor_lt_two_pow (bchEncode_lt hid) he)]
  exact bchDecode_correct hid he hw

/-- Fuel-based structural variant of `weight`, so that concrete instances
compute by kernel reduction. -/
def weightAux : Nat → Nat → Nat
  | 0, _ => 0
  | f+1, n => if n = 0 then 0 else n % 2 + weightAux f (n / 2)

theorem weight_zero : weight 0 = 0 := by
  rw [weight]
  rfl

theorem weightAux_eq : ∀ (f n : Nat), n < 2 ^ f → weightAux f n = weight n
  | 0, n, h => by
    simp at h
    rw [h, weightAux, weight_zero]
  | f+1, n, h => by
    rw [weightAux]
    by_cases hn : n = 0
    · rw [if_pos hn, hn, weight_zero]
    · rw [if_neg hn, weightAux_eq f (n / 2) (by rw [pow_succ] at h; omega),
        ← weight_eq_general n]

theorem C2_bounded_correction_witness :
    decodePayload (natToBits 63 (bchEncode 123456 ^^^ 42) ++ [false])
      = some (123456, weight 42) :=
  C2_bounded_correction 123456 (by norm_num) 42 (by norm_num)
    (by rw [← weightAux_eq 64 42 (by norm_num)]; decide)

/-! ### TamperDiffAnalyzer: pixel-comparison mask and tampering rate
(`app/services/validation_service.py`, `_create_difference_mask` and its
helpers, lines 568-725). A pixel is its three RGB channels (exact integers: the
code converts `uint8` data to `float32`, which represents all involved
values exactly); an image is its list of pixel rows. -/

/-- RGB pixel value. -/
abbrev Pixel : Type := Int × Int × Int

/-- Image as a list of rows of RGB pixels (the `numpy` array view of a
decoded image). -/
abbrev Img : Type := List (List Pixel)

/-- RGBA colour of a mask pixel. -/
abbrev Rgba : Type := Nat × Nat × Nat × Nat

/-- Threshold on the per-pixel Euclidean difference magnitude
(`PIXEL_DIFF_THRESHOLD = 10`, `validation_service.py` line 569). -/
def PIXEL_DIFF_THRESHOLD : Int := 10

/-- Colour of a tampered mask pixel: opaque white
(`TAMPERED_COLOR = [255, 255, 255, 255]`, line 570). -/
def TAMPERED_COLOR : Rgba := (255, 255, 255, 255)

/-- Colour of an untampered mask pixel: fully transparent
(`NORMAL_COLOR = [0, 0, 0, 0]`, line 571). -/
def NORMAL_COLOR : Rgba := (0, 0, 0, 0)

/-- Squared Euclidean magnitude of the per-channel difference of two pixels.
The code computes `sqrt((r1-r2)^2 + (g1-g2)^2 + (b1-b2)^2)` and compares it
with the threshold 10; on the exactly-represented integer channel values
this comparison is equivalent to comparing the square with 100. -/
def pixelDiffSq (p q : Pixel) : Int :=
  (p.1 - q.1) ^ 2 + (p.2.1 - q.2.1) ^ 2 + (p.2.2 - q.2.2) ^ 2

/-- Per-pixel tamper classification of `_calculate_pixel_differences`
(lines 620-633): a pixel is tampered when the Euclidean difference magnitude
exceeds the fixed threshold. -/
def tamperedMask (input original : Img) : List (List Bool) :=
  List.zipWith
    (fun r1 r2 => List.zipWith
      (fun p q => decide (PIXEL_DIFF_THRESHOLD ^ 2 < pixelDiffSq p q)) r1 r2)
    input original

/-- Total number of mask entries (`tampered_mask.size`). -/
def maskSize (mask : List (List Bool)) : Nat := (mask.map List.length).sum

/-- Number of tampered entries (`np.sum(tampered_mask)`). -/
def countTampered (mask : List (List Bool)) : Nat :=
  (mask.map (fun row => row.countP id)).sum

/-- Tampering rate of `_calculate_tampering_rate` (lines 635-639):
`(tampered_pixels / total_pixels * 100) if total_pixels > 0 else 0.0`,
in exact rational arithmetic. -/
def tamperingRate (mask : List (List Bool)) : ℚ :=
  if 0 < maskSize mask then
    (countTampered mask : ℚ) / (maskSize mask : ℚ) * 100
  else 0

/-- RGBA mask image of `_create_mask_image` (lines 641-658): tampered
entries become opaque white, all others fully transparent. -/
def createMaskImage (mask : List (List Bool)) : List (List Rgba) :=
  mask.map (fun row => row.map (fun t => if t then TAMPERED_COLOR else NORMAL_COLOR))

/-- Fixed-size empty mask of `_create_empty_mask` (lines 660-677): a 512x512
fully transparent RGBA image, independent of the reference dimensions. -/
def createEmptyMask : List (List Rgba) :=
  List.replicate 512 (List.replicate 512 NORMAL_COLOR)

/-- Bytes submitted to the analyzer: either decodable to a pixel image or
not (`PIL.Image.open` fails). -/
inductive ImageBytes : Type
  | valid (img : Img)
  | corrupt

/-- The mask/rate computation of `_create_difference_mask` (lines 573-599)
after preprocessing: on two decodable images it classifies pixels, computes
the rate and renders the mask; any internal failure (such as bytes that
cannot be decoded as an image) is swallowed by its `except` clause, which
returns the empty string (here `none`) and rate `0.0`. -/
def createDifferenceMask : ImageBytes → ImageBytes → Option (List (List Rgba)) × ℚ
  | ImageBytes.valid input, ImageBytes.valid original =>
    let mask := tamperedMask input original
    (some (createMaskImage mask), tamperingRate mask)
  | _, _ => (none, 0)

/-- Verification result dictionary built by
`_send_to_ai_server_for_verification` and updated in place by
`_update_verification_result`. -/
structure VerificationResultData where
  aiTamperingRate : ℚ
  tamperedRegionsMask : Option (List (List Rgba))
  originalImageId : Nat
  tamperingRate : Option ℚ
deriving DecidableEq

/-- Update of `_update_verification_result` (lines 710-725): a zero rate
records rate `0.0` together with a fresh empty 512x512 mask; a nonzero rate
records the computed rate and mask. -/
def updateVerificationResult (vr : VerificationResultData)
    (maskData : Option (List (List Rgba))) (rate : ℚ) : VerificationResultData :=
  if rate = 0 then
    { vr with tamperingRate := some 0, tamperedRegionsMask := some createEmptyMask }
  else
    { vr with tamperingRate := some rate, tamperedRegionsMask := maskData }

/-- Control flow of `_process_pixel_comparison_validation` (lines 679-708):
a missing catalog row or a failed download raises inside its `try` and the
`except` clause keeps the oracle result; otherwise the difference mask is
computed and `_update_verification_result` overwrites the result. -/
def processPixelComparison (inputBytes : ImageBytes) (refBytes : Option ImageBytes)
    (vr : VerificationResultData) : VerificationResultData :=
  match refBytes with
  | none => vr
  | some rb =>
    let mr := createDifferenceMask inputBytes rb
    updateVerificationResult vr mr.1 mr.2

/-- Mask finally recorded for a pixel-comparison verification: the
composition of `_create_difference_mask` and the mask choice of
`_update_verification_result`. -/
def pixelComparisonMask (input original : Img) : List (List Rgba) :=
  let mask := tamperedMask input original
  if tamperingRate mask = 0 then createEmptyMask else createMaskImage mask

theorem forall₂_map_self {α β : Type} (f : α → β) (l : List α) :
    List.Forall₂ (fun b a => b = f a) (l.map f) l := by
  induction l with
  | nil => exact List.Forall₂.nil
  | cons x l ih => exact List.Forall₂.cons rfl ih

theorem tamperedMask_self_false (img : Img) :
    ∀ row ∈ tamperedMask img img, ∀ b ∈ row, b = false := by
  intro row hrow b hb
  rw [tamperedMask, List.zipWith_same] at hrow
  obtain ⟨r, _, rfl⟩ := List.mem_map.1 hrow
  rw [List.zipWith_same] at hb
  obtain ⟨p, _, rfl⟩ := List.mem_map.1 hb
  have hz : pixelDiffSq p p = 0 := by
    rw [pixelDiffSq]
    ring
  rw [hz]
  decide

theorem countTampered_eq_zero {mask : List (List Bool)}
    (h : ∀ row ∈ mask, ∀ b ∈ row, b = false) : countTampered mask = 0 := by
  rw [countTampered]
  apply List.sum_eq_zero
  intro x hx
  obtain ⟨row, hrow, rfl⟩ := List.mem_map.1 hx
  rw [List.countP_eq_zero]
  intro b hb
  rw [h row hrow b hb]
  decide

/-- C5. Diff identity: running the tamper diff of a valid image against
itself (after the resize/convert preprocessing, which on identical inputs
yields identical pixel arrays) produces a tampering ratio of exactly 0 and
a mask whose pixels are all fully transparent (zero opaque pixels). -/
theorem C5_diff_identity (img : Img) :
    tamperingRate (tamperedMask img img) = 0 ∧
    ∀ row ∈ createMaskImage (tamperedMask img img), ∀ px ∈ row, px = NORMAL_COLOR := by
  have hfalse := tamperedMask_self_false img
  constructor
  · rw [tamperingRate]
    split
    · rw [countTampered_eq_zero hfalse]
      norm_num
    · rfl
  · intro row hrow px hpx
    rw [createMaskImage] at hrow
    obtain ⟨brow, hbrow, rfl⟩ := List.mem_map.1 hrow
    obtain ⟨b, hb, rfl⟩ := List.mem_map.1 hpx
    rw [hfalse brow hbrow b hb]
    rfl

/-- Pixel count of an image's dimensions. -/
def imgSize (img : Img) : Nat := (img.map List.length).sum

theorem maskSize_eq_imgSize {cand ref : Img}
    (hdim : List.Forall₂ (fun (r1 r2 : List Pixel) => r1.length = r2.length) cand ref) :
    maskSize (tamperedMask cand ref) = imgSize ref := by
  rw [maskSize, imgSize, tamperedMask]
  induction hdim with
  | nil => rfl
  | cons h _ ih =>
    rw [List.zipWith_cons_cons, List.map_cons, List.map_cons, List.sum_cons,
      List.sum_cons, List.length_zipWith, h, min_self, ih]

/-- C6. Diff ratio formula: when exactly `k` pixels of the
candidate/reference pair (of equal dimensions, as guaranteed by the resize
step) differ by a per-pixel Euclidean channel-difference magnitude strictly
above the fixed threshold, the computed tampering ratio is exactly
`k / total_pixels * 100`, `total_pixels` being the pixel count of the
reference dimensions (exact rational arithmetic, hence inside any
floating-point tolerance). -/
theorem C6_diff_ratio_formula (cand ref : Img) (k : Nat)
    (hdim : List.Forall₂ (fun (r1 r2 : List Pixel) => r1.length = r2.length) cand ref)
    (hk : countTampered (tamperedMask cand ref) = k)
    (hpos : 0 < imgSize ref) :
    tamperingRate (tamperedMask cand ref) = (k : ℚ) / (imgSize ref : ℚ) * 100 := by
  have hsize := maskSize_eq_imgSize hdim
  rw [tamperingRate, hsize, if_pos hpos, hk]

theorem C6_diff_ratio_formula_witness :
    tamperingRate (tamperedMask [[((0 : Int), (0 : Int), (0 : Int)), ((200 : Int), (0 : Int), (0 : Int))]]
        [[((0 : Int), (0 : Int), (0 : Int)), ((0 : Int), (0 : Int), (0 : Int))]])
      = (1 : ℚ) / ((imgSize [[((0 : Int), (0 : Int), (0 : Int)), ((0 : Int), (0 : Int), (0 : Int))]] : ℚ)) * 100 :=
  C6_diff_ratio_formula _ _ 1 (List.Forall₂.cons rfl List.Forall₂.nil) (by decide) (by decide)

/-- C7 (counterexample). The claim states the produced mask always has the
same dimensions as the reference, including when the tampering ratio is 0;
but for a 1x1 reference compared with itself the ratio is 0 and the recorded
mask is the fixed 512x512 empty mask of `_create_empty_mask`, not a 1x1
mask. -/
theorem C7_counterexample :
    (pixelComparisonMask [[((0 : Int), (0 : Int), (0 : Int))]]
        [[((0 : Int), (0 : Int), (0 : Int))]]).length = 512 ∧
    ([[((0 : Int), (0 : Int), (0 : Int))]] : Img).length = 1 := by
  have hz : tamperingRate (tamperedMask [[((0 : Int), (0 : Int), (0 : Int))]]
      [[((0 : Int), (0 : Int), (0 : Int))]]) = 0 := by
    rw [tamperingRate]
    split
    · rw [countTampered_eq_zero (tamperedMask_self_false _)]
      norm_num
    · rfl
  constructor
  · rw [pixelComparisonMask]
    rw [if_pos hz, createEmptyMask]
    exact List.length_replicate 512 _
  · rfl

theorem createMaskImage_forall₂ (mask : List (List Bool)) :
    List.Forall₂ (List.Forall₂ (fun (px : Rgba) (t : Bool) =>
        px = if t then TAMPERED_COLOR else NORMAL_COLOR))
      (createMaskImage mask) mask := by
  rw [createMaskImage]
  induction mask with
  | nil => exact List.Forall₂.nil
  | cons row mask ih =>
    exact List.Forall₂.cons (forall₂_map_self _ row) ih

theorem createMaskImage_rows {cand ref : Img}
    (hdim : List.Forall₂ (fun (r1 r2 : List Pixel) => r1.length = r2.length) cand ref) :
    List.Forall₂ (fun (rm : List Rgba) (rr : List Pixel) => rm.length = rr.length)
      (createMaskImage (tamperedMask cand ref)) ref := by
  rw [createMaskImage, tamperedMask]
  induction hdim with
  | nil => exact List.Forall₂.nil
  | cons h _ ih =>
    rw [List.zipWith_cons_cons, List.map_cons]
    refine List.Forall₂.cons ?_ ih
    rw [List.length_map, List.length_zipWith, h, min_self]

/-- C7 (amended). For every diff computation on preprocessed images of equal
dimensions, the recorded mask is a 4-channel image in which a pixel is
opaque white exactly when classified tampered and fully transparent
otherwise, and it has the reference dimensions whenever the tampering ratio
is nonzero; when the ratio is 0 the recorded mask is instead the fixed
512x512 fully transparent mask. -/
theorem C7_mask_shape (cand ref : Img)
    (hdim : List.Forall₂ (fun (r1 r2 : List Pixel) => r1.length = r2.length) cand ref) :
    (tamperingRate (tamperedMask cand ref) ≠ 0 →
      pixelComparisonMask cand ref = createMaskImage (tamperedMask cand ref) ∧
      (pixelComparisonMask cand ref).length = ref.length ∧
      List.Forall₂ (fun (rm : List Rgba) (rr : List Pixel) => rm.length = rr.length)
        (pixelComparisonMask cand ref) ref ∧
      List.Forall₂ (List.Forall₂ (fun (px : Rgba) (t : Bool) =>
          px = if t then TAMPERED_COLOR else NORMAL_COLOR))
        (pixelComparisonMask cand ref) (tamperedMask cand ref)) ∧
    (tamperingRate (tamperedMask cand ref) = 0 →
      pixelComparisonMask cand ref = createEmptyMask ∧
      createEmptyMask.length = 512 ∧
      ∀ row ∈ createEmptyMask, row.length = 512 ∧ ∀ px ∈ row, px = NORMAL_COLOR) := by
  constructor
  · intro hne
    have hm : pixelComparisonMask cand ref = createMaskImage (tamperedMask cand ref) := by
      rw [pixelComparisonMask, if_neg hne]
    refine ⟨hm, ?_, ?_, ?_⟩
    · rw [hm, createMaskImage, List.length_map, tamperedMask, List.length_zipWith,
        List.Forall₂.length_eq hdim, min_self]
    · rw [hm]
      exact createMaskImage_rows hdim
    · rw [hm]
      exact createMaskImage_forall₂ _
  · intro hz
    refine ⟨by rw [pixelComparisonMask, if_pos hz],
      by rw [createEmptyMask]; exact List.length_replicate 512 _, ?_⟩
    intro row hrow
    rw [createEmptyMask] at hrow
    have hr := List.eq_of_mem_replicate hrow
    subst hr
    refine ⟨List.length_replicate 512 _, ?_⟩
    intro px hpx
    exact List.eq_of_mem_replicate hpx

theorem C7_mask_shape_witness :
    pixelComparisonMask [[((0 : Int), (0 : Int), (0 : Int))]]
        [[((0 : Int), (0 : Int), (0 : Int))]] = createEmptyMask ∧
    createEmptyMask.length = 512 ∧
    ∀ row ∈ createEmptyMask, row.length = 512 ∧ ∀ px ∈ row, px = NORMAL_COLOR :=
  (C7_mask_shape [[((0 : Int), (0 : Int), (0 : Int))]] [[((0 : Int), (0 : Int), (0 : Int))]]
    (List.Forall₂.cons rfl List.Forall₂.nil)).2 (by
      rw [tamperingRate]
      split
      · rw [countTampered_eq_zero (tamperedMask_self_false _)]
        norm_num
      · rfl)

/-- C10 (counterexample). The claim states that after an internal error of
the difference-mask helper the caller keeps the oracle-provided result
unchanged; but with undecodable submitted bytes and an available reference
the helper returns (empty string, 0.0) without raising, and the caller then
overwrites the oracle-provided mask. -/
theorem C10_counterexample :
    (processPixelComparison ImageBytes.corrupt
        (some (ImageBytes.valid [[((0 : Int), (0 : Int), (0 : Int))]]))
        ⟨5, some [[TAMPERED_COLOR]], 3, none⟩).tamperedRegionsMask
      ≠ (⟨5, some [[TAMPERED_COLOR]], 3, none⟩ : VerificationResultData).tamperedRegionsMask := by
  decide

/-- C10 (amended). The difference-mask helper is total at its call boundary:
whenever either byte string cannot be decoded as an image, it returns the
pair (empty mask, ratio 0.0) instead of propagating the failure; the caller
then records zero tampering with a fresh empty 512x512 mask, overwriting
the oracle-provided mask and keeping only the oracle rate field. -/
theorem C10_total_fallback (b1 b2 : ImageBytes) (vr : VerificationResultData)
    (h : b1 = ImageBytes.corrupt ∨ b2 = ImageBytes.corrupt) :
    createDifferenceMask b1 b2 = (none, 0) ∧
    processPixelComparison b1 (some b2) vr
      = { vr with tamperingRate := some 0,
                  tamperedRegionsMask := some createEmptyMask } := by
  have hcd : createDifferenceMask b1 b2 = (none, 0) := by
    cases b1 with
    | corrupt => cases b2 <;> rfl
    | valid img =>
      cases b2 with
      | corrupt => rfl
      | valid img2 =>
        rcases h with h | h <;> exact absurd h (by simp)
  refine ⟨hcd, ?_⟩
  rw [processPixelComparison, hcd, updateVerificationResult, if_pos rfl]

theorem C10_total_fallback_witness :
    createDifferenceMask ImageBytes.corrupt ImageBytes.corrupt = (none, 0) ∧
    processPixelComparison ImageBytes.corrupt (some ImageBytes.corrupt)
        ⟨5, some [[TAMPERED_COLOR]], 3, none⟩
      = { (⟨5, some [[TAMPERED_COLOR]], 3, none⟩ : VerificationResultData) with
            tamperingRate := some 0, tamperedRegionsMask := some createEmptyMask } :=
  C10_total_fallback ImageBytes.corrupt ImageBytes.corrupt
    ⟨5, some [[TAMPERED_COLOR]], 3, none⟩ (Or.inl rfl)

/-! ### TransactionalAssetUploader (`app/services/image_service.py`,
`upload_image`, lines 59-143) and VerificationOrchestrator
(`app/services/validation_service.py`, `validate_image` lines 88-285 and
`update_user_report` lines 1091-1175). The relational catalog and the blob
store are modelled by the lists of committed identifiers and stored paths. -/

/-- Path of the pristine blob
(`gt_path = f"image/{image_id}/{filename_without_ext}_origi.png"`). -/
def gtPath (imageId : Nat) (stem : String) : String :=
  "image/" ++ toString imageId ++ "/" ++ stem ++ "_origi.png"

/-- Path of the watermark-bearing blob
(`srh_path = f"image/{image_id}/{filename_without_ext}_wm.png"`). -/
def wmPath (imageId : Nat) (stem : String) : String :=
  "image/" ++ toString imageId ++ "/" ++ stem ++ "_wm.png"

theorem gtPath_ne_wmPath (imageId : Nat) (stem : String) :
    gtPath imageId stem ≠ wmPath imageId stem := by
  intro h
  have hlen := congrArg String.length h
  rw [gtPath, wmPath] at hlen
  simp only [String.length_append] at hlen
  have h1 : ("_origi.png" : String).length = 10 := rfl
  have h2 : ("_wm.png" : String).length = 7 := rfl
  omega

/-- Joint state of the asset catalog (committed rows) and the blob store. -/
structure UploadState where
  dbRows : List Nat
  blobs : List String
deriving DecidableEq

/-- Transactional upload flow of `upload_image` (lines 81-133): a
provisional catalog row is inserted inside the transaction and assigned
`newId`; the watermarking request and the two blob writes follow, each of
which may fail (`aiOk`, `gtOk`, `wmOk`); a failed blob write first deletes
the blobs already written in this attempt (`uploaded_files`); any exception
then propagates out of the transaction block, rolling the insert back, so
an error outcome carries the post-compensation state. -/
def uploadImage (st : UploadState) (newId : Nat) (stem : String)
    (aiOk gtOk wmOk : Bool) : Except UploadState UploadState :=
  let gt := gtPath newId stem
  let wm := wmPath newId stem
  if aiOk = false then
    Except.error st
  else if gtOk = false then
    Except.error st
  else if wmOk = false then
    Except.error { st with blobs := (st.blobs ++ [gt]).filter (fun p => !(p == gt)) }
  else
    Except.ok { dbRows := st.dbRows ++ [newId], blobs := st.blobs ++ [gt, wm] }

/-- C4. Upload atomicity (compensation): whenever the watermarking oracle
call or any blob write fails after the provisional catalog insert, the
upload ends in an error whose state contains no catalog row for the new
identifier and no blob at either derived path; in particular, when the
pristine blob was already written and the watermark blob write fails, the
pristine blob is deleted. -/
theorem C4_upload_atomicity (st : UploadState) (newId : Nat) (stem : String)
    (aiOk gtOk wmOk : Bool)
    (hfail : ¬(aiOk = true ∧ gtOk = true ∧ wmOk = true))
    (hdb : newId ∉ st.dbRows)
    (hgt : gtPath newId stem ∉ st.blobs)
    (hwm : wmPath newId stem ∉ st.blobs) :
    ∃ stAfter, uploadImage st newId stem aiOk gtOk wmOk = Except.error stAfter ∧
      newId ∉ stAfter.dbRows ∧
      gtPath newId stem ∉ stAfter.blobs ∧
      wmPath newId stem ∉ stAfter.blobs := by
  cases aiOk with
  | false => exact ⟨st, rfl, hdb, hgt, hwm⟩
  | true =>
    cases gtOk with
    | false => exact ⟨st, rfl, hdb, hgt, hwm⟩
    | true =>
      cases wmOk with
      | true => exact absurd ⟨rfl, rfl, rfl⟩ hfail
      | false =>
        refine ⟨{ st with blobs := ((st.blobs ++ [gtPath newId stem]).filter (fun p => !(p == gtPath newId stem))) }, rfl, hdb, ?_, ?_⟩
        · intro hmem
          have := (List.mem_filter.1 hmem).2
          simp at this
        · intro hmem
          have h1 := (List.mem_filter.1 hmem).1
          rcases List.mem_append.1 h1 with h2 | h2
          · exact hwm h2
          · simp at h2
            exact gtPath_ne_wmPath newId stem h2.symm

theorem C4_upload_atomicity_witness :
    ∃ stAfter, uploadImage ⟨[], []⟩ 7 "photo" true true false = Except.error stAfter ∧
      7 ∉ stAfter.dbRows ∧
      gtPath 7 "photo" ∉ stAfter.blobs ∧
      wmPath 7 "photo" ∉ stAfter.blobs :=
  C4_upload_atomicity ⟨[], []⟩ 7 "photo" true true false
    (by simp) (List.not_mem_nil 7) (List.not_mem_nil _) (List.not_mem_nil _)

/-- Row of the `validation_record` table (`app/models.py` lines 38-50),
restricted to the fields the verification flow reads or writes. -/
structure RecordRow where
  uuid : String
  userId : Nat
  hasWatermark : Bool
  detectedId : Option Nat
  modificationRate : Option ℚ
  reportLink : Option String
  reportText : Option String
deriving DecidableEq

/-- Identifier-checking and persistence skeleton of `validate_image`
(`validation_service.py` lines 122-184): a positive recovered identifier is
looked up in the catalog; a missing row raises HTTP 400 before any
`ValidationRecord` insert (the later generic handler re-raises, so the call
fails and nothing is persisted); otherwise one record is inserted, with
`has_watermark` true exactly for a positive recovered identifier. -/
def validateImage (records : List RecordRow) (catalog : List Nat) (userId : Nat)
    (newUuid : String) (decodedId : Nat) (rate : ℚ) :
    Except Unit Unit × List RecordRow :=
  if 0 < decodedId then
    if decodedId ∈ catalog then
      (Except.ok (), records ++ [⟨newUuid, userId, true, some decodedId, some rate, none, none⟩])
    else
      (Except.error (), records)
  else
    (Except.ok (), records ++ [⟨newUuid, userId, false, some decodedId, some rate, none, none⟩])

/-- C8. Catalog inconsistency is a hard failure: when the decoded identifier
is structurally valid (positive) but absent from the catalog, the verify
operation fails with an error (distinct from a successful "no watermark"
outcome) and the stored records are unchanged - in particular no
`ValidationRecord` with watermark present and ratio 0 is persisted for the
attempt. -/
theorem C8_catalog_inconsistency (records : List RecordRow) (catalog : List Nat)
    (userId : Nat) (newUuid : String) (decodedId : Nat) (rate : ℚ)
    (hpos : 0 < decodedId) (habs : decodedId ∉ catalog) :
    validateImage records catalog userId newUuid decodedId rate
      = (Except.error (), records) := by
  rw [validateImage, if_pos hpos, if_neg habs]

theorem C8_catalog_inconsistency_witness :
    validateImage [] [4, 9] 2 "u-1" 7 0 = (Except.error (), []) :=
  C8_catalog_inconsistency [] [4, 9] 2 "u-1" 7 0 (by norm_num) (by decide)

/-- Report-update flow of `update_user_report`
(`validation_service.py` lines 1091-1175): the record is looked up by its
verification uuid (404 when absent), the caller must be the user who ran
the verification (403), and the record must show a detected watermark with
a positive modification rate (400); on success only the two report fields
of the matching record are replaced. The code performs no check that the
report fields are still empty. -/
def updateUserReport (records : List RecordRow) (callerId : Nat) (uuid : String)
    (link text : Option String) : Except Unit Unit × List RecordRow :=
  match records.find? (fun r => r.uuid == uuid) with
  | none => (Except.error (), records)
  | some r =>
    if r.userId ≠ callerId then (Except.error (), records)
    else if r.hasWatermark = false then (Except.error (), records)
    else if r.modificationRate.getD 0 ≤ 0 then (Except.error (), records)
    else
      (Except.ok (), records.map (fun row =>
        if row.uuid == uuid then
          { row with reportLink := link, reportText := text }
        else row))

/-- C9 counterexample: the code enforces no once-per-record restriction. A
record whose report fields were already set by a first successful update
accepts a second update, which again succeeds and overwrites the report. -/
theorem C9_counterexample :
    ((updateUserReport
        (updateUserReport [⟨"u1", 9, true, some 4, some 3, none, none⟩]
          9 "u1" (some "L1") (some "T1")).2
        9 "u1" (some "L2") (some "T2")).1 = Except.ok ()) ∧
    ((updateUserReport
        (updateUserReport [⟨"u1", 9, true, some 4, some 3, none, none⟩]
          9 "u1" (some "L1") (some "T1")).2
        9 "u1" (some "L2") (some "T2")).2.map RecordRow.reportText
      = [some "T2"]) := by
  constructor <;> rfl

/-- C9. Report-update restrictions as implemented: given that the uuid
resolves to record `r`, the update succeeds exactly when the caller is the
verifying user and the record shows a detected watermark with positive
modification rate; and every stored record keeps its uuid, user, watermark
flag, detected identifier and modification rate - only the report link and
text of the matching record may change. (No at-most-once restriction is
stated: the code has none, see the counterexample.) -/
theorem C9_report_update_rules (records : List RecordRow) (callerId : Nat)
    (uuid : String) (link text : Option String) (r : RecordRow)
    (hfind : records.find? (fun row => row.uuid == uuid) = some r) :
    ((updateUserReport records callerId uuid link text).1 = Except.ok ()
      ↔ r.userId = callerId ∧ r.hasWatermark = true ∧
        ∃ q, r.modificationRate = some q ∧ 0 < q) ∧
    ∀ row' ∈ (updateUserReport records callerId uuid link text).2,
      ∃ row ∈ records, row'.uuid = row.uuid ∧ row'.userId = row.userId ∧
        row'.hasWatermark = row.hasWatermark ∧
        row'.detectedId = row.detectedId ∧
        row'.modificationRate = row.modificationRate := by
  have hsame : ∀ row' ∈ records, ∃ row ∈ records, row'.uuid = row.uuid ∧
      row'.userId = row.userId ∧ row'.hasWatermark = row.hasWatermark ∧
      row'.detectedId = row.detectedId ∧
      row'.modificationRate = row.modificationRate :=
    fun row' h => ⟨row', h, rfl, rfl, rfl, rfl, rfl⟩
  simp only [updateUserReport, hfind]
  by_cases hu : r.userId = callerId
  · rw [if_neg (by simpa using hu)]
    by_cases hw : r.hasWatermark = false
    · rw [if_pos hw]
      refine ⟨⟨fun h => absurd h (by simp), fun ⟨_, h2, _⟩ => by simp [hw] at h2⟩, hsame⟩
    · rw [if_neg hw]
      have hw' : r.hasWatermark = true := by
        cases h : r.hasWatermark
        · exact absurd h hw
        · rfl
      by_cases hle : r.modificationRate.getD 0 ≤ 0
      · rw [if_pos hle]
        refine ⟨⟨fun h => absurd h (by simp), ?_⟩, hsame⟩
        rintro ⟨-, -, q, hsome, hpos⟩
        rw [hsome] at hle
        simp only [Option.getD_some] at hle
        exact absurd hle (not_le.2 hpos)
      · rw [if_neg hle]
        refine ⟨⟨fun _ => ⟨hu, hw', ?_⟩, fun _ => rfl⟩, ?_⟩
        · cases h : r.modificationRate with
          | none =>
            rw [h] at hle
            simp at hle
          | some q =>
            rw [h] at hle
            simp only [Option.getD_some] at hle
            exact ⟨q, rfl, not_le.1 hle⟩
        · intro row' hmem
          rcases List.mem_map.1 hmem with ⟨row, hrow, heq⟩
          refine ⟨row, hrow, ?_⟩
          subst heq
          by_cases hid : (row.uuid == uuid) = true
          · rw [if_pos hid]
            exact ⟨rfl, rfl, rfl, rfl, rfl⟩
          · rw [if_neg hid]
            exact ⟨rfl, rfl, rfl, rfl, rfl⟩
  · rw [if_pos (by simpa using hu)]
    refine ⟨⟨fun h => absurd h (by simp), fun ⟨h1, _⟩ => absurd h1 hu⟩, hsame⟩

theorem C9_report_update_rules_witness :
    (((updateUserReport [⟨"u1", 9, true, some 4, some 3, none, none⟩]
        9 "u1" (some "L") (some "T")).1 = Except.ok ()
      ↔ (9 : Nat) = 9 ∧ true = true ∧
        ∃ q, (some (3 : ℚ) : Option ℚ) = some q ∧ 0 < q) ∧
    ∀ row' ∈ (updateUserReport [⟨"u1", 9, true, some 4, some 3, none, none⟩]
        9 "u1" (some "L") (some "T")).2,
      ∃ row ∈ [(⟨"u1", 9, true, some 4, some 3, none, none⟩ : RecordRow)],
        row'.uuid = row.uuid ∧ row'.userId = row.userId ∧
        row'.hasWatermark = row.hasWatermark ∧
        row'.detectedId = row.detectedId ∧
        row'.modificationRate = row.modificationRate) :=
  C9_report_update_rules [⟨"u1", 9, true, some 4, some 3, none, none⟩]
    9 "u1" (some "L") (some "T") ⟨"u1", 9, true, some 4, some 3, none, none⟩ rfl
